import Mathlib

/-!
Verification of the filesystem abstraction layer of the XCommon repository
(src/Code/Filesystem.hpp / Filesystem.cpp), against its natural-language
specification.

The embedding models the non-Windows compile path of the sources, where
`PATH_SEPARATOR` is `'/'` (Filesystem.hpp).  Path strings are modelled as
`List Char` (C++ `str` values over ASCII); file contents are modelled as
`List Char` for text and `List Nat` for byte buffers.  Operating-system
state (the set of existing directories, the bytes of a file, the entries a
native directory enumeration yields) is passed explicitly; fallible
operations return `Option` or a success flag, exactly as the C++ returns
empty values or `bool` flags.  Machine arithmetic (`u64`, `size_t`) is
modelled as `Nat` with explicit `% 2 ^ 64` where the source can wrap.
-/

namespace XCommon

/-- Filesystem.hpp: `#define PATH_SEPARATOR '/'` (non-Windows branch). -/
def PATH_SEPARATOR : Char := '/'

/-- Macros header (src/unnamed/part_000 line 81): `#define X_TOSTR(val) std::to_string(val)`.
Applied to the `char` `PATH_SEPARATOR`, C++ overload resolution picks
`std::to_string(int)`, so the separator is converted to its character code
rendered in decimal — `"47"` for `'/'` — not to a one-character string. -/
def X_TOSTR (c : Char) : List Char := (Nat.repr c.toNat).toList

/-- Filesystem.cpp `Path::Normalize`, the splitting loop: cuts `rawPath`
into the chunks between occurrences of `PATH_SEPARATOR`.  (The C++ loop
emits no chunk after a trailing separator and no chunk for an empty input;
this version emits an extra empty chunk there, which the normalization
fold below discards, so the resulting stack is identical.) -/
def splitOnSep : List Char → List Char → List (List Char)
  | [], acc => [acc.reverse]
  | c :: cs, acc =>
    if c = PATH_SEPARATOR then acc.reverse :: splitOnSep cs []
    else splitOnSep cs (c :: acc)

/-- Filesystem.cpp `Path::Normalize`, the part-processing loop:
`..` pops the previous segment unless the stack is empty or its top is
itself `..`; empty and `.` segments are dropped; everything else is pushed. -/
def normStack (parts : List (List Char)) : List (List Char) :=
  parts.foldl
    (fun stack part =>
      if part = ['.', '.'] ∧ stack ≠ [] ∧ stack.getLast? ≠ some ['.', '.'] then
        stack.dropLast
      else if part ≠ [] ∧ part ≠ ['.'] then stack ++ [part]
      else stack)
    []

/-- Filesystem.cpp lines 484-509, `Path::Normalize` (non-Windows branch:
the `#ifdef _WIN32` removal of the first character is not compiled).
Each surviving part is appended as `PATH_SEPARATOR + part`; an empty
result becomes the single-separator root. -/
def Normalize (rawPath : List Char) : List Char :=
  let result := (normStack (splitOnSep rawPath [])).foldl
    (fun acc part => acc ++ PATH_SEPARATOR :: part) []
  if result = [] then [PATH_SEPARATOR] else result

/-- Filesystem.hpp `class Path`: semantic wrapper around a path string
(member `str mPath`). -/
structure Path where
  mPath : List Char
  deriving DecidableEq, Repr

/-- Filesystem.hpp: `explicit Path(const str& path) : mPath(Normalize(path))`. -/
def Path.ofRaw (raw : List Char) : Path := ⟨Normalize raw⟩

/-- Filesystem.hpp: `Path() = default`, giving a default-constructed
(empty) stored string. -/
def Path.emptyPath : Path := ⟨[]⟩

/-- C++ `std::string::find_last_of` for a single needle character:
the index of the last occurrence, or `none` (`npos`). -/
def findLastOfAux (sep : Char) : List Char → Nat → Option Nat → Option Nat
  | [], _, best => best
  | c :: cs, i, best =>
    findLastOfAux sep cs (i + 1) (if c = sep then some i else best)

/-- C++ `s.find_last_of(sep)` as an `Option Nat`. -/
def findLastOf (s : List Char) (sep : Char) : Option Nat :=
  findLastOfAux sep s 0 none

/-- Filesystem.cpp lines 304-308, `Path::Parent`: the substring before the
last separator, wrapped in `Path(...)`; when there is no separator or it
is the first character, `Path(X_TOSTR(PATH_SEPARATOR))`. -/
def Path.Parent (p : Path) : Path :=
  match findLastOf p.mPath PATH_SEPARATOR with
  | none => Path.ofRaw (X_TOSTR PATH_SEPARATOR)
  | some 0 => Path.ofRaw (X_TOSTR PATH_SEPARATOR)
  | some i => Path.ofRaw (p.mPath.take i)

/-- Filesystem.cpp lines 477-482, the static `Path::Join(const str&, const str&)`:
returns the empty operand when either side is empty, otherwise concatenates
with exactly one separator. -/
def Path.JoinStrs (lhs rhs : List Char) : List Char :=
  if lhs = [] then lhs
  else if rhs = [] then rhs
  else if lhs.getLast? = some PATH_SEPARATOR then lhs ++ rhs
  else lhs ++ PATH_SEPARATOR :: rhs

/-- Filesystem.cpp lines 349-351, `Path Path::Join(const str&) const`:
`Path(Join(mPath, subPath))` — the result is re-normalized by the `Path`
constructor. -/
def Path.Join (p : Path) (subPath : List Char) : Path :=
  Path.ofRaw (Path.JoinStrs p.mPath subPath)

/-- Filesystem.cpp lines 353-355, `Path Path::operator/(const str&) const`:
identical to the const `Join` overload. -/
def Path.div (p : Path) (subPath : List Char) : Path :=
  Path.ofRaw (Path.JoinStrs p.mPath subPath)

/-- Filesystem.cpp lines 392-395, the mutating `Path& Path::Join(const str&)`:
`mPath = Join(Str(), subPath)` — the raw concatenation is assigned directly,
without passing through the normalizing `Path` constructor. -/
def Path.JoinMut (p : Path) (subPath : List Char) : Path :=
  ⟨Path.JoinStrs p.mPath subPath⟩

/-- Filesystem.cpp line 377, the base-string preparation inside
`Path::RelativeTo`: `if (!baseStr.empty() && baseStr.back() == PATH_SEPARATOR)
baseStr += PATH_SEPARATOR;` — when the base is non-empty and already ends
with the separator, another separator is appended to it. -/
def augmentedBase (basePath : Path) : List Char :=
  if basePath.mPath ≠ [] ∧ basePath.mPath.getLast? = some PATH_SEPARATOR then
    basePath.mPath ++ [PATH_SEPARATOR]
  else basePath.mPath

/-- Filesystem.cpp lines 373-385, `Path::RelativeTo`: the first
`baseStr.length()` characters of this path are compared with the
(possibly augmented) `baseStr`; on mismatch `*this` is returned, on an
empty remainder `Path(".")`, otherwise `Path(remainder)`. -/
def Path.RelativeTo (p basePath : Path) : Path :=
  let baseStr := augmentedBase basePath
  if p.mPath.take baseStr.length ≠ baseStr then p
  else
    let relativePath := p.mPath.drop baseStr.length
    if relativePath = [] then Path.ofRaw ['.']
    else Path.ofRaw relativePath

/-- C++ membership test used to model `Path::Exists()` against an explicit
world: the list of directory strings that currently exist. -/
def member (x : List Char) : List (List Char) → Bool
  | [] => false
  | y :: ys => if x = y then true else member x ys

/-- Filesystem.cpp lines 401-415, `Path::Create`: returns `true` when the
path already exists, otherwise makes exactly one directory level
(the `mkdir` call is modelled as succeeding, with "already exists"
tolerated as in the source).  The world of existing directories is passed
and returned explicitly. -/
def Path.Create (world : List (List Char)) (p : Path) : Bool × List (List Char) :=
  if member p.mPath world then (true, world) else (true, p.mPath :: world)

/-- Filesystem.cpp lines 417-428, `Path::CreateAll`: if the path exists,
done; otherwise, unless the stored string is the single-separator root,
recurse into `Parent()` first when the parent does not exist, then
`Create()`.  The C++ recursion has no other bound, so it is embedded with
explicit fuel: `none` means the fuel ran out, i.e. the source recursion
performed at least that many nested calls without returning. -/
def Path.CreateAll (fuel : Nat) (world : List (List Char)) (p : Path) :
    Option (Bool × List (List Char)) :=
  match fuel with
  | 0 => none
  | fuel + 1 =>
    if member p.mPath world then some (true, world)
    else
      let afterParent : Option (Bool × List (List Char)) :=
        if p.mPath ≠ [PATH_SEPARATOR] then
          let parentPath := p.Parent
          if member parentPath.mPath world then some (true, world)
          else Path.CreateAll fuel world parentPath
        else some (true, world)
      match afterParent with
      | none => none
      | some (false, w) => some (false, w)
      | some (true, w) => some (Path.Create w p)

/-- Filesystem.cpp lines 58-69, `FileReader::ReadBlock`.  The file is
`none` when it cannot be opened, otherwise its bytes.  `size` (`size_t`)
and `offset` (`u64`) are 64-bit unsigned in the source, so the sum in the
bounds check wraps at `2 ^ 64`; the final `if (!file)` after the `read`
call reports failure (empty result) whenever fewer than `size` bytes were
available from `offset`, which is only reachable when that sum wrapped. -/
def FileReader.ReadBlock (file : Option (List Nat)) (size offset : Nat) : List Nat :=
  match file with
  | none => []
  | some bytes =>
    let fileSize := bytes.length
    if offset ≥ fileSize ∨ size = 0 ∨ (offset + size) % 2 ^ 64 > fileSize then []
    else if fileSize < offset + size then []
    else (bytes.drop offset).take size

/-- Filesystem.cpp lines 39-45, `FileReader::ReadText`: the whole file as
text, or an empty string when the file cannot be opened. -/
def FileReader.ReadText (file : Option (List Char)) : List Char :=
  match file with
  | none => []
  | some c => c

/-- Filesystem.cpp lines 88-97, `FileWriter::WriteText`, as a transformer
of the file's contents.  The `std::ofstream` is opened with
`std::ios::trunc` first (modelled as always opening successfully), so the
contents are truncated to empty before the empty-input check rejects the
call; otherwise a `'\n'` is appended when the text does not already end
with one, and the result is written. -/
def FileWriter.WriteText (_existing : Option (List Char)) (text : List Char) :
    Bool × Option (List Char) :=
  let truncated : Option (List Char) := some []
  if text = [] then (false, truncated)
  else if text.getLast? = some '\n' then (true, some text)
  else (true, some (text ++ ['\n']))

/-- Filesystem.cpp lines 181-188, `StreamReader::Read`, over an explicit
stream state: `isOpen` (`is_open() && good()`), the file's bytes, the
current position, and the caller's buffer `oldData` (returned unchanged on
the early-out path).  `mSize` is the cached total size, which the
constructor sets to the file length.  When `currentPos + size > mSize` the
requested size is clamped to `mSize - currentPos`, a `u64` subtraction
that wraps at `2 ^ 64`; the buffer is resized to the clamped size and
filled by `read`, after which `good()` is returned (no spontaneous I/O
error is modelled).  The result is (success flag, buffer, new position). -/
def StreamReader.Read (isOpen : Bool) (fileBytes : List Nat) (pos : Nat)
    (oldData : List Nat) (size : Nat) : Bool × List Nat × Nat :=
  if ¬ isOpen ∨ size = 0 then (false, oldData, pos)
  else
    let mSize := fileBytes.length
    let sz := if pos + size > mSize then (2 ^ 64 + mSize - pos) % 2 ^ 64 else size
    (true, (fileBytes.drop pos).take sz, pos + sz)

/-- Filesystem.cpp lines 593-600, the pseudo-entry test of
`DirectoryIterator::ProcessCurrentEntry`:
`strcmp(cFileName, ".") == 0 || strcmp(cFileName, "..") == 0`. -/
def isPseudo (n : List Char) : Bool :=
  decide (n = ['.'] ∨ n = ['.', '.'])

/-- Filesystem.cpp lines 544-600, the combined advance of
`DirectoryIterator`: `ProcessCurrentEntry` re-invokes `operator++`
(which consumes the next native entry) whenever the current entry is `.`
or `..`, and `operator++` sets the end state when the native enumeration
is exhausted.  The names the OS enumeration will still yield are the
explicit list; the result is (`mIsEnd`, `mCurrent`, remaining names).
`mCurrent` at the end state carries no information (the source leaves it
stale and `operator==` ignores it there), so it is the default path. -/
def DirectoryIterator.step (root : Path) : List (List Char) → Bool × Path × List (List Char)
  | [] => (true, Path.emptyPath, [])
  | n :: rest =>
    if isPseudo n then DirectoryIterator.step root rest
    else (false, root.div n, rest)

/-- The full sequence of entry names a `DirectoryIterator` traversal
yields, obtained by iterating the skip logic of
`ProcessCurrentEntry` / `operator++` over the native enumeration order. -/
def DirectoryIterator.names : List (List Char) → List (List Char)
  | [] => []
  | n :: rest =>
    if isPseudo n then DirectoryIterator.names rest
    else n :: DirectoryIterator.names rest

/-- Spec-side predicate, from the wording of claim C5: the written content
ends with exactly one trailing line break (its last character is a line
break and the character before it, if any, is not). -/
def specEndsWithExactlyOneNewline (c : List Char) : Prop :=
  c.getLast? = some '\n' ∧ c.dropLast.getLast? ≠ some '\n'

/-- Claim C1 (code_bug evidence): evaluating `Path::Parent` at the failing
input.  For a path whose only separator is the first character, `Parent()`
is specified to return the root path (the single platform separator), but
the source builds the fallback from `X_TOSTR(PATH_SEPARATOR)`, i.e.
`std::to_string((int)'/') == "47"`, so `Path("/a").Parent()` stores
`"/47"`, not `"/"`.  The ordinary case (separator at an index other than
0) does return the substring before the last separator. -/
theorem Parent_root_case_bug :
    (Path.ofRaw "/a".toList).Parent.mPath = "/47".toList ∧
    (Path.ofRaw "/a".toList).Parent.mPath ≠ [PATH_SEPARATOR] ∧
    X_TOSTR PATH_SEPARATOR = "47".toList ∧
    (Path.ofRaw "/a/b".toList).Parent = Path.ofRaw "/a".toList := by decide

/-- Claim C2 (counterexample): joining with an empty sub-path is not an
identity.  The static `Path::Join` returns the empty right operand, which
the `Path` constructor re-normalizes to the root, so
`Path("/a").Join("")` is the root path, not `Path("/a")`; likewise
joining onto an empty (default-constructed) path does not return the
empty operand but the root. -/
theorem Join_empty_counterexample :
    (Path.ofRaw "/a".toList).Join [] ≠ Path.ofRaw "/a".toList ∧
    (Path.ofRaw "/a".toList).div [] ≠ Path.ofRaw "/a".toList ∧
    (Path.emptyPath.Join "b".toList).mPath ≠ Path.emptyPath.mPath := by decide

/-- Claim C2 (amended): for every Path `p`, `p.Join("")` and `p / ""`
return the root path (stored string is the single separator), because the
static `Join` returns the empty operand and the `Path` constructor
normalizes the empty string to the root; joining any sub-path onto an
empty path likewise returns the root path — a defined result, not an
error. -/
theorem Join_empty_amended :
    (∀ p : Path, (p.Join []).mPath = [PATH_SEPARATOR] ∧ (p.div []).mPath = [PATH_SEPARATOR]) ∧
    (∀ subPath, (Path.emptyPath.Join subPath).mPath = [PATH_SEPARATOR]) := by
  have hjs : ∀ lhs : List Char, Path.JoinStrs lhs [] = [] := by
    intro lhs
    by_cases h : lhs = [] <;> simp [Path.JoinStrs, h]
  have hroot : (Path.ofRaw []).mPath = [PATH_SEPARATOR] := by decide
  refine ⟨fun p => ⟨?_, ?_⟩, fun subPath => ?_⟩
  · show (Path.ofRaw (Path.JoinStrs p.mPath [])).mPath = _
    rw [hjs]; exact hroot
  · show (Path.ofRaw (Path.JoinStrs p.mPath [])).mPath = _
    rw [hjs]; exact hroot
  · show (Path.ofRaw (Path.JoinStrs [] subPath)).mPath = _
    have h : Path.JoinStrs [] subPath = [] := by simp [Path.JoinStrs]
    rw [h]; exact hroot

/-- Claim C3 (counterexample): three concrete deviations of
`Path::RelativeTo` from the claim.  An exact match yields the root path,
not the path "." (the `Path(".")` it constructs normalizes "." away);
for a base ending in the separator (the root), the source appends another
separator before comparing, so a path that does begin with the base is
returned unchanged; and a stripped remainder is re-normalized, so the
result gains a leading separator instead of being the bare stripped
string. -/
theorem RelativeTo_counterexample :
    ((Path.ofRaw "/a".toList).RelativeTo (Path.ofRaw "/a".toList)).mPath = [PATH_SEPARATOR] ∧
    ((Path.ofRaw "/a".toList).RelativeTo (Path.ofRaw "/a".toList)).mPath ≠ ".".toList ∧
    (Path.ofRaw "/a".toList).RelativeTo (Path.ofRaw "/".toList) = Path.ofRaw "/a".toList ∧
    ("/".toList <+: "/a".toList) ∧
    ((Path.ofRaw "/ab".toList).RelativeTo (Path.ofRaw "/a".toList)).mPath = "/b".toList ∧
    "/b".toList ≠ "b".toList := by decide

/-- Claim C3 (amended): let the augmented base be base's string with an
extra separator appended when it is non-empty and already ends with the
separator.  If p's string does not have the augmented base as a prefix,
`RelativeTo` returns p unchanged; if it does and they are not equal, the
result is the Path constructed from p's string with that prefix stripped
(re-normalized); when p's string equals the augmented base exactly, the
result is `Path(".")`, whose stored string is the root separator. -/
theorem RelativeTo_amended :
    ∀ p basePath : Path,
      (¬ augmentedBase basePath <+: p.mPath → p.RelativeTo basePath = p) ∧
      (augmentedBase basePath <+: p.mPath → p.mPath ≠ augmentedBase basePath →
        p.RelativeTo basePath = Path.ofRaw (p.mPath.drop (augmentedBase basePath).length)) ∧
      (p.mPath = augmentedBase basePath →
        p.RelativeTo basePath = Path.ofRaw ['.'] ∧ (Path.ofRaw ['.']).mPath = [PATH_SEPARATOR]) := by
  intro p basePath
  refine ⟨?_, ?_, ?_⟩
  · intro hnp
    have hne : p.mPath.take (augmentedBase basePath).length ≠ augmentedBase basePath := by
      intro he
      exact hnp (by rw [List.prefix_iff_eq_take]; exact he.symm)
    simp only [Path.RelativeTo]
    rw [if_pos hne]
  · intro hp hne
    have htake : p.mPath.take (augmentedBase basePath).length = augmentedBase basePath :=
      ((List.prefix_iff_eq_take).mp hp).symm
    have hlen : (augmentedBase basePath).length < p.mPath.length := by
      rcases Nat.lt_or_ge (augmentedBase basePath).length p.mPath.length with h | h
      · exact h
      · exact absurd (hp.eq_of_length (Nat.le_antisymm hp.length_le h)).symm hne
    have hdrop : p.mPath.drop (augmentedBase basePath).length ≠ [] := by
      intro h0
      rw [List.drop_eq_nil_iff] at h0
      omega
    simp only [Path.RelativeTo]
    rw [if_neg (not_not_intro htake), if_neg hdrop]
  · intro he
    refine ⟨?_, by decide⟩
    have htake : p.mPath.take (augmentedBase basePath).length = augmentedBase basePath := by
      rw [he]; exact List.take_length _
    have hdrop : p.mPath.drop (augmentedBase basePath).length = [] := by
      rw [he]; exact List.drop_length _
    simp only [Path.RelativeTo]
    rw [if_neg (not_not_intro htake), if_pos hdrop]

/-- Claim C3 witness: the amended theorem applied at concrete inputs —
a non-prefix pair returned unchanged, a strict-prefix pair stripped and
re-normalized, and an exact match yielding the root-normalized
`Path(".")`. -/
theorem RelativeTo_amended_witness :
    (Path.ofRaw "/x".toList).RelativeTo (Path.ofRaw "/y".toList) = Path.ofRaw "/x".toList ∧
    (Path.ofRaw "/a/b".toList).RelativeTo (Path.ofRaw "/a".toList) = Path.ofRaw "/b".toList ∧
    ((Path.ofRaw "/a".toList).RelativeTo (Path.ofRaw "/a".toList) = Path.ofRaw ['.'] ∧
      (Path.ofRaw ['.']).mPath = [PATH_SEPARATOR]) :=
  ⟨(RelativeTo_amended (Path.ofRaw "/x".toList) (Path.ofRaw "/y".toList)).1 (by decide),
   (RelativeTo_amended (Path.ofRaw "/a/b".toList) (Path.ofRaw "/a".toList)).2.1
     (by decide) (by decide),
   (RelativeTo_amended (Path.ofRaw "/a".toList) (Path.ofRaw "/a".toList)).2.2 (by decide)⟩

/-- Claim C4: `FileReader::ReadBlock` returns an empty byte sequence if
and only if the file cannot be opened (`none`), `offset >= fileSize`,
`size == 0`, or `offset + size > fileSize`; in every other case it
returns exactly `size` bytes starting at `offset` — a partial read is
never returned.  (No spontaneous I/O error is modelled; the only read
failure the source can hit is the short read caught by its final
`if (!file)` check, included in the embedding.) -/
theorem ReadBlock_empty_iff :
    (∀ size offset, FileReader.ReadBlock none size offset = []) ∧
    ∀ (bytes : List Nat) (size offset : Nat),
      (FileReader.ReadBlock (some bytes) size offset = [] ↔
        offset ≥ bytes.length ∨ size = 0 ∨ offset + size > bytes.length) ∧
      (offset + size ≤ bytes.length → size ≠ 0 →
        FileReader.ReadBlock (some bytes) size offset = (bytes.drop offset).take size ∧
        (FileReader.ReadBlock (some bytes) size offset).length = size) := by
  refine ⟨fun _ _ => rfl, fun bytes size offset => ⟨?_, fun hle hsz => ?_⟩⟩
  · have hmod : (offset + size) % 2 ^ 64 ≤ offset + size := Nat.mod_le _ _
    simp only [FileReader.ReadBlock]
    split_ifs with h1 h2
    · simp only [true_iff]
      rcases h1 with h | h | h
      · exact Or.inl h
      · exact Or.inr (Or.inl h)
      · exact Or.inr (Or.inr (by omega))
    · exact ⟨fun _ => Or.inr (Or.inr (by omega)), fun _ => rfl⟩
    · push_neg at h1
      obtain ⟨ha, hb, hc⟩ := h1
      constructor
      · intro hemp
        exfalso
        have hlen : ((bytes.drop offset).take size).length = 0 := by rw [hemp]; rfl
        rw [List.length_take, List.length_drop] at hlen
        omega
      · intro hdisj
        exfalso
        rcases hdisj with h | h | h <;> omega
  · have hmod : (offset + size) % 2 ^ 64 ≤ offset + size := Nat.mod_le _ _
    simp only [FileReader.ReadBlock]
    have h1 : ¬ (offset ≥ bytes.length ∨ size = 0 ∨ (offset + size) % 2 ^ 64 > bytes.length) := by
      push_neg
      refine ⟨by omega, hsz, by omega⟩
    have h2 : ¬ bytes.length < offset + size := by omega
    rw [if_neg h1, if_neg h2]
    refine ⟨rfl, ?_⟩
    rw [List.length_take, List.length_drop]
    omega

/-- Claim C4 witness: `ReadBlock` on the three-byte file `[10, 20, 30]`
with `size = 2`, `offset = 1` returns exactly the two bytes at offset 1. -/
theorem ReadBlock_empty_iff_witness :
    FileReader.ReadBlock (some [10, 20, 30]) 2 1 = [20, 30] ∧
    (FileReader.ReadBlock (some [10, 20, 30]) 2 1).length = 2 :=
  (ReadBlock_empty_iff.2 [10, 20, 30] 2 1).2 (by decide) (by decide)

/-- Claim C5 (counterexample): for the non-empty text "a\n\n",
`FileWriter::WriteText` succeeds and writes the text verbatim (it already
ends with a line break, so nothing is appended), and the written content
ends with two trailing line breaks — not exactly one as claimed. -/
theorem WriteText_two_newlines_counterexample :
    (FileWriter.WriteText none ['a', '\n', '\n']).1 = true ∧
    (FileWriter.WriteText none ['a', '\n', '\n']).2 = some ['a', '\n', '\n'] ∧
    ¬ specEndsWithExactlyOneNewline ['a', '\n', '\n'] := by
  unfold specEndsWithExactlyOneNewline
  decide

/-- Claim C5 (amended): for every non-empty text `t`,
`FileWriter::WriteText` succeeds, and the written content is `t` itself
when `t` already ends with a line break and `t` with exactly one line
break appended otherwise — so the content always ends with at least one
trailing line break, and one is appended only if `t` does not already end
with one; `WriteText(path, "hello")` followed by `ReadText(path)` yields
"hello\n"; for empty `t`, `WriteText` returns failure. -/
theorem WriteText_amended :
    (∀ existing t, t ≠ [] →
      FileWriter.WriteText existing t =
        (true, some (if t.getLast? = some '\n' then t else t ++ ['\n'])) ∧
      ∃ c, (FileWriter.WriteText existing t).2 = some c ∧ c.getLast? = some '\n') ∧
    (∀ existing, FileWriter.WriteText existing [] = (false, some [])) ∧
    FileReader.ReadText (FileWriter.WriteText none "hello".toList).2 = "hello\n".toList := by
  refine ⟨?_, fun _ => rfl, by decide⟩
  intro existing t ht
  by_cases h : t.getLast? = some '\n'
  · exact ⟨by simp [FileWriter.WriteText, ht, h], t, by simp [FileWriter.WriteText, ht, h], h⟩
  · refine ⟨by simp [FileWriter.WriteText, ht, h], t ++ ['\n'],
      by simp [FileWriter.WriteText, ht, h], ?_⟩
    simp [List.getLast?_concat]

/-- Claim C5 witness: the amended theorem applied to the text "hi" — the
write succeeds with content "hi\n". -/
theorem WriteText_amended_witness :
    FileWriter.WriteText none "hi".toList = (true, some "hi\n".toList) :=
  (WriteText_amended.1 none "hi".toList (by decide)).1

/-- Claim C6 (code_bug evidence): the mutating `Path& Path::Join(const str&)`
assigns the raw concatenation `Join(Str(), subPath)` to `mPath` without
passing it through the normalizing `Path` constructor, so the stored
string can keep a resolvable ".." segment: joining "b/../c" onto
`Path("/a")` stores "/a/b/../c", which normalization would reduce to
"/a/c" (as the const `Join` overload does). -/
theorem JoinMut_skips_normalization_bug :
    ((Path.ofRaw "/a".toList).JoinMut "b/../c".toList).mPath = "/a/b/../c".toList ∧
    Normalize "/a/b/../c".toList = "/a/c".toList ∧
    Normalize ((Path.ofRaw "/a".toList).JoinMut "b/../c".toList).mPath ≠
      ((Path.ofRaw "/a".toList).JoinMut "b/../c".toList).mPath ∧
    ((Path.ofRaw "/a".toList).Join "b/../c".toList).mPath = "/a/c".toList := by decide

/-- Helper for claim C7: with no existing directories, `CreateAll` on the
path stored as "/47" never terminates, because `Parent()` maps that path
to itself (its only separator is the first character, so the fallback
`Path(X_TOSTR(PATH_SEPARATOR))` = `Path("47")` re-normalizes to "/47")
while the recursion's base case only fires at the single-separator root. -/
theorem createAll_p47_none :
    ∀ n : Nat, Path.CreateAll n [] ⟨['/', '4', '7']⟩ = none := by
  intro n
  induction n with
  | zero => rfl
  | succ n ih =>
    have hp : (⟨['/', '4', '7']⟩ : Path).Parent = ⟨['/', '4', '7']⟩ := by decide
    simp [Path.CreateAll, member, hp, ih]

/-- Claim C7 (code_bug evidence): `Path::CreateAll` does not terminate for
every path.  Starting from `Path("/a")` in a world where no directory
exists, the recursion into `Parent()` reaches the fixed point "/47"
(the `X_TOSTR` fallback of `Parent`) and never the root-separator base
case, so no amount of fuel lets the embedded recursion return: the C++
recursion descends forever. -/
theorem CreateAll_never_terminates_bug :
    ∀ fuel : Nat, Path.CreateAll fuel [] (Path.ofRaw "/a".toList) = none := by
  have key : ∀ fuel : Nat, Path.CreateAll fuel [] (Path.ofRaw ['/', 'a']) = none := by
    intro fuel
    cases fuel with
    | zero => rfl
    | succ n =>
      have h1 : ¬ ((Path.ofRaw ['/', 'a']).mPath = [PATH_SEPARATOR]) := by decide
      have hp : (Path.ofRaw ['/', 'a']).Parent = ⟨['/', '4', '7']⟩ := by decide
      simp [Path.CreateAll, member, h1, hp, createAll_p47_none n]
  intro fuel
  exact key fuel

/-- Claim C8 (counterexample): an open `StreamReader` with a requested
size of 0 — `Read` returns failure even though no I/O error occurred and
no clamping was involved, contradicting "returns failure only on an
actual I/O error" for "every requested size". -/
theorem Read_size_zero_counterexample :
    StreamReader.Read true [1, 2, 3] 0 [] 0 = (false, [], 0) ∧
    (StreamReader.Read true [1, 2, 3] 0 [] 0).1 ≠ true := by decide

/-- Claim C8 (amended): for every open `StreamReader` and every requested
size of at least 1, `Read` clamps the size to the remaining bytes between
the current position and EOF, resizes the output buffer to the clamped
size (returning exactly those bytes), advances by the clamped size, and
succeeds — clamping alone never causes failure; a requested size of 0,
however, returns failure with the buffer untouched, as does a closed
reader. -/
theorem Read_amended :
    (∀ (fileBytes : List Nat) (pos : Nat) (oldData : List Nat) (size : Nat),
      pos ≤ fileBytes.length → fileBytes.length < 2 ^ 64 → 1 ≤ size →
        StreamReader.Read true fileBytes pos oldData size =
          (true, (fileBytes.drop pos).take (min size (fileBytes.length - pos)),
            pos + min size (fileBytes.length - pos)) ∧
        ((StreamReader.Read true fileBytes pos oldData size).2.1).length =
          min size (fileBytes.length - pos)) ∧
    (∀ fileBytes pos oldData,
      StreamReader.Read true fileBytes pos oldData 0 = (false, oldData, pos)) ∧
    (∀ fileBytes pos oldData size,
      StreamReader.Read false fileBytes pos oldData size = (false, oldData, pos)) := by
  refine ⟨?_, fun _ _ _ => rfl, fun _ _ _ _ => rfl⟩
  intro fileBytes pos oldData size hpos hlen hsz
  simp only [StreamReader.Read]
  split_ifs with hguard hc
  · exfalso
    rcases hguard with h | h
    · simp at h
    · omega
  · have hv : (2 ^ 64 + fileBytes.length - pos) % 2 ^ 64 = min size (fileBytes.length - pos) := by
      have he : 2 ^ 64 + fileBytes.length - pos = 2 ^ 64 + (fileBytes.length - pos) := by omega
      rw [he, Nat.add_mod_left, Nat.mod_eq_of_lt (by omega)]
      omega
    rw [hv]
    exact ⟨rfl, by rw [List.length_take, List.length_drop]; omega⟩
  · have hv : min size (fileBytes.length - pos) = size := by omega
    rw [hv]
    exact ⟨rfl, by rw [List.length_take, List.length_drop]; omega⟩

/-- Claim C8 witness: the amended theorem applied to an open reader over
three bytes at position 1 with requested size 10 — the size is clamped to
2 and the read succeeds with exactly the remaining bytes; size 0 fails. -/
theorem Read_amended_witness :
    StreamReader.Read true [5, 6, 7] 1 [] 10 = (true, [6, 7], 3) ∧
    (StreamReader.Read true [5, 6, 7] 1 [] 10).2.1.length = 2 ∧
    StreamReader.Read true [5, 6, 7] 1 [] 0 = (false, [], 1) :=
  ⟨((Read_amended.1 [5, 6, 7] 1 [] 10 (by decide) (by decide) (by decide)).1),
   ((Read_amended.1 [5, 6, 7] 1 [] 10 (by decide) (by decide) (by decide)).2),
   Read_amended.2.1 [5, 6, 7] 1 []⟩

/-- Claim C9: directory enumeration never yields an entry named "." or
"..".  Every iterator advance either reaches the distinguished end state
or holds a current entry built from a non-pseudo native name, and the
full sequence of names a traversal yields contains neither "." nor ".."
— the pseudo-entries are skipped transparently by advancing again. -/
theorem DirectoryIterator_skips_pseudo :
    (∀ (root : Path) (ns : List (List Char)),
      (DirectoryIterator.step root ns).1 = false →
        ∃ n, n ∈ ns ∧ isPseudo n = false ∧
          (DirectoryIterator.step root ns).2.1 = root.div n) ∧
    (∀ ns n, n ∈ DirectoryIterator.names ns → isPseudo n = false) := by
  constructor
  · intro root ns
    induction ns with
    | nil => intro h; simp [DirectoryIterator.step] at h
    | cons m rest ih =>
      intro h
      by_cases hm : isPseudo m = true
      · simp only [DirectoryIterator.step, hm, if_true] at h ⊢
        obtain ⟨n, hmem, hps, hcur⟩ := ih h
        exact ⟨n, List.mem_cons_of_mem _ hmem, hps, hcur⟩
      · have hm2 : isPseudo m = false := by
          cases hval : isPseudo m
          · rfl
          · exact absurd hval hm
        refine ⟨m, List.mem_cons_self m rest, hm2, ?_⟩
        simp only [DirectoryIterator.step, hm2]
        rfl
  · intro ns
    induction ns with
    | nil => intro n h; simp [DirectoryIterator.names] at h
    | cons m rest ih =>
      intro n h
      by_cases hm : isPseudo m = true
      · simp only [DirectoryIterator.names, hm, if_true] at h
        exact ih n h
      · have hm2 : isPseudo m = false := by
          cases hval : isPseudo m
          · rfl
          · exact absurd hval hm
        simp only [DirectoryIterator.names, hm2, Bool.false_eq_true, if_false,
          List.mem_cons] at h
        rcases h with rfl | h
        · exact hm2
        · exact ih n h

/-- Claim C9 witness: advancing over the native order ".", "..", "a" lands
on a valid non-pseudo entry, and "a" is not a pseudo-entry. -/
theorem DirectoryIterator_skips_pseudo_witness :
    (∃ n, n ∈ [['.'], ['.', '.'], ['a']] ∧ isPseudo n = false ∧
      (DirectoryIterator.step (Path.ofRaw "/r".toList) [['.'], ['.', '.'], ['a']]).2.1 =
        (Path.ofRaw "/r".toList).div n) ∧
    isPseudo ['a'] = false :=
  ⟨DirectoryIterator_skips_pseudo.1 (Path.ofRaw "/r".toList) [['.'], ['.', '.'], ['a']]
     (by decide),
   DirectoryIterator_skips_pseudo.2 [['a']] ['a'] (by decide)⟩

/-- Claim C10: `FileWriter::WriteText` opens the destination with
truncation before validating its input, so calling it with an empty
string returns failure yet leaves the file truncated to zero length —
for every prior content, the on-disk state after the call is the empty
file, not the unchanged prior content. -/
theorem WriteText_truncates_before_validation :
    (∀ existing, FileWriter.WriteText existing [] = (false, some [])) ∧
    (∀ c : List Char, c ≠ [] → (FileWriter.WriteText (some c) []).2 ≠ some c) := by
  refine ⟨fun _ => rfl, fun c hc h => ?_⟩
  have h2 : some ([] : List Char) = some c := h
  exact hc (Option.some.inj h2).symm

/-- Claim C10 witness: a file previously holding "x" is truncated to the
empty content while the call reports failure. -/
theorem WriteText_truncates_before_validation_witness :
    FileWriter.WriteText (some ['x']) [] = (false, some []) ∧
    (FileWriter.WriteText (some ['x']) []).2 ≠ some ['x'] :=
  ⟨WriteText_truncates_before_validation.1 (some ['x']),
   WriteText_truncates_before_validation.2 ['x'] (by decide)⟩

end XCommon
